import Mathlib

/-!
Shallow embedding of the schedule-parsing core of `ocr_engine.py`
(the `_bbox_map_parse` pipeline and `parse_schedule`), together with
theorems settling the specification claims about it.

Real-valued pixel coordinates and confidences are modelled as rationals;
Python's machine integers as `Int`/`Nat`; code that can raise is modelled
with `Except`.
-/

namespace OcrEngine

/-! ### String helpers mirroring Python's `str` operations -/

/-- Python whitespace characters recognised by `str.strip` / `str.split`. -/
def isPySpace (c : Char) : Bool :=
  c = ' ' || c = '\t' || c = '\n' || c = '\r' || c = '\x0b' || c = '\x0c'

/-- `str.strip`: drop leading and trailing whitespace. -/
def pyStrip (s : String) : String :=
  String.mk ((((s.toList.dropWhile isPySpace).reverse).dropWhile isPySpace).reverse)

/-- `str.upper` restricted to the ASCII range used by the parser, as a char list. -/
def upperL (s : String) : List Char :=
  s.toList.map Char.toUpper

/-- Whether `n` is a leading run of `h` (helper for substring search). -/
def leadEq : List Char → List Char → Bool
  | [], _ => true
  | _ :: _, [] => false
  | a :: as, b :: bs => a == b && leadEq as bs

/-- Python's `n in h` substring test on char lists. -/
def hasSub : List Char → List Char → Bool
  | n, [] => n.isEmpty
  | n, b :: t => leadEq n (b :: t) || hasSub n t

/-- First whitespace-delimited component of a string (`s.split()[0]` for
nonempty splits, `[]` when the string is all whitespace). -/
def firstWordOf (s : String) : List Char :=
  (s.toList.dropWhile isPySpace).takeWhile (fun c => ¬ isPySpace c)

/-- `re.search(r"\d+", s)` viewed as a Boolean: some digit occurs. -/
def containsDigit (s : String) : Bool :=
  s.toList.any Char.isDigit

/-- First occurrence of a shift-alphabet character `M`/`T`/`N` in a char list,
mirroring `re.search(r"[MTN]", text.upper())`. -/
def firstShiftChar : List Char → Option Char
  | [] => none
  | c :: cs => if c = 'M' ∨ c = 'T' ∨ c = 'N' then some c else firstShiftChar cs

/-! ### Configuration constants (`ocr_engine.py` module level) -/

/-- `TARGET_NAME` default. -/
def TARGET_NAME : String := "NINA ARONOVA"

/-- `MIN_TOKEN_CONFIDENCE`. -/
def MIN_TOKEN_CONFIDENCE : ℚ := 15 / 100

/-- `SHIFT_MAP`: shift code to (label, start hour, end hour). -/
def shiftMap (c : Char) : Option (String × ℕ × ℕ) :=
  if c = 'M' then some ("Morning", 6, 14)
  else if c = 'T' then some ("Evening", 14, 22)
  else if c = 'N' then some ("Night", 22, 6)
  else none

/-! ### Token model and ingestion -/

/-- One retained OCR token: stripped text, confidence, bbox centroid. -/
structure Token where
  text : String
  conf : ℚ
  cx : ℚ
  cy : ℚ
  deriving DecidableEq, Repr

/-- A raw confidence field as delivered by the OCR collaborator: either a
numeric value or something `float()` would reject. -/
inductive RawConf where
  | num (q : ℚ)
  | nonNum
  deriving DecidableEq, Repr

/-- One raw OCR detection: either a proper `(bbox, text, conf)` triple or a
tuple of some other arity (which tuple unpacking would reject). -/
inductive RawDetection where
  | det3 (bbox : List (ℚ × ℚ)) (text : String) (conf : RawConf)
  | other (arity : ℕ)
  deriving DecidableEq, Repr

/-- A detection the ingestion loop can consume without raising. -/
def WellFormedDet : RawDetection → Prop
  | .det3 _ _ (.num _) => True
  | _ => False

instance : DecidablePred WellFormedDet := by
  intro d
  unfold WellFormedDet
  cases d with
  | det3 bbox text conf => cases conf <;> simp <;> infer_instance
  | other n => simp; infer_instance

/-- Token built from a well-formed detection: centroid of the four bbox
corners (the source divides by `4.0` unconditionally) and stripped text. -/
def mkToken (bbox : List (ℚ × ℚ)) (text : String) (conf : ℚ) : Token :=
  { text := pyStrip text
    conf := conf
    cx := (bbox.map Prod.fst).sum / 4
    cy := (bbox.map Prod.snd).sum / 4 }

/-- The token-ingestion loop of `_bbox_map_parse` (lines 301–314): unpack each
detection, convert the confidence, drop tokens below the minimum confidence.
Unpacking a non-triple or converting a non-numeric confidence raises, which is
modelled as `Except.error`. -/
def ingest : List RawDetection → Except String (List Token)
  | [] => .ok []
  | .other _ :: _ => .error "cannot unpack detection"
  | .det3 _ _ .nonNum :: _ => .error "confidence is not a float"
  | .det3 bbox text (.num q) :: rest =>
    match ingest rest with
    | .error e => .error e
    | .ok ts => .ok (if q < MIN_TOKEN_CONFIDENCE then ts else mkToken bbox text q :: ts)

/-! ### Row tolerance estimator (lines 331–340) -/

/-- Floor of a rational, computably from the normalized fraction. -/
def ratFloor (q : ℚ) : ℤ := q.num.fdiv q.den

/-- Python's `round` on an exact value: round half to even. -/
def pyRound (q : ℚ) : ℤ :=
  if q - ratFloor q < 1 / 2 then ratFloor q
  else if 1 / 2 < q - ratFloor q then ratFloor q + 1
  else if ratFloor q % 2 = 0 then ratFloor q else ratFloor q + 1

/-- `sorted` on an integer list (stable, ascending). -/
def sortInts (l : List ℤ) : List ℤ :=
  List.insertionSort (· ≤ ·) l

/-- Collapse adjacent duplicates of a sorted list (so that
`dedupSorted (sortInts l)` is Python's `sorted(set(l))`). -/
def dedupSorted : List ℤ → List ℤ
  | [] => []
  | [a] => [a]
  | a :: b :: rest => if a = b then dedupSorted (b :: rest) else a :: dedupSorted (b :: rest)

/-- Successive differences of a list. -/
def gapsOf : List ℤ → List ℤ
  | [] => []
  | [_] => []
  | a :: b :: rest => (b - a) :: gapsOf (b :: rest)

/-- `ys_centers`: sorted distinct rounded token row centers. -/
def ysCenters (tokens : List Token) : List ℤ :=
  dedupSorted (sortInts (tokens.map (fun t => pyRound t.cy)))

/-- The row-tolerance estimate `y_tol` (lines 333–340): with at least two
distinct centers, `max(25, int(median_gap * 0.8))` where `median_gap` is
`sorted(gaps)[len(gaps) // 2]`; otherwise the default 35. -/
def yTol (tokens : List Token) : ℤ :=
  let ys := ysCenters tokens
  if 2 ≤ ys.length then
    let gaps := gapsOf ys
    let medianGap := (sortInts gaps).getD (gaps.length / 2) 40
    max 25 ((4 * medianGap) / 5)
  else 35

/-- Ordinary rounding to the nearest integer (the spec's `round`; no half
cases arise for multiples of 1/5). -/
def roundQ (q : ℚ) : ℤ := ratFloor (q + 1 / 2)

/-- Modelled from the words of claim C2 (spec side, for comparison with
`yTol`): tolerance `max(25, round(0.8 × median_gap))` where `median_gap` is
the lower-middle element of the sorted gap list. -/
def tolClaimC2 (tokens : List Token) : ℤ :=
  let ys := ysCenters tokens
  if 2 ≤ ys.length then
    let gaps := gapsOf ys
    let medianGap := (sortInts gaps).getD ((gaps.length - 1) / 2) 40
    max 25 (roundQ (4 * (medianGap : ℚ) / 5))
  else 35

/-! ### Row locator (lines 316–329) -/

/-- Does the token's text contain the full target name, case-insensitively? -/
def matchesFull (t : Token) : Bool :=
  hasSub (upperL TARGET_NAME) (upperL t.text)

/-- Does the token's text contain the target's first name, case-insensitively?
The guard mirrors Python's `if first and ...`. -/
def matchesFirst (t : Token) : Bool :=
  let fw := firstWordOf TARGET_NAME
  !fw.isEmpty && hasSub (fw.map Char.toUpper) (upperL t.text)

/-- Python's `max(xs, key=conf)` over a nonempty list: first maximum wins. -/
def pickMax (x : Token) (xs : List Token) : Token :=
  xs.foldl (fun best u => if best.conf < u.conf then u else best) x

/-- The row locator: full-name candidates first, first-name candidates as a
fallback, then highest confidence (`max` keeps the first maximum). -/
def locateTarget (tokens : List Token) : Option Token :=
  let fulls := tokens.filter matchesFull
  let cands := if fulls.isEmpty then tokens.filter matchesFirst else fulls
  match cands with
  | [] => none
  | c :: cs => some (pickMax c cs)

/-! ### Column anchor builder (lines 342–366) -/

/-- `sorted` of tokens by `cx` (stable, ascending). -/
def sortByCx (l : List Token) : List Token :=
  List.insertionSort (fun a b => a.cx ≤ b.cx) l

/-- The evenly spaced fallback anchor `(i + 0.5) * img_w / len(days)`. -/
def synthAnchor (W : ℚ) (n i : ℕ) : ℚ :=
  ((i : ℚ) + 1 / 2) * W / (n : ℚ)

/-- Walk the day list with a running 0-based index, consuming the sorted
header tokens positionally: day index `i` gets `day_tokens[i].cx` while
header tokens remain, and the synthetic anchor afterwards (lines 352–366;
the `else` branch with no header tokens at all is the `[]` case). -/
def dayXList (W : ℚ) (n : ℕ) : List Token → List ℕ → ℕ → List (ℕ × ℚ)
  | _, [], _ => []
  | [], d :: ds, i => (d, synthAnchor W n i) :: dayXList W n [] ds (i + 1)
  | t :: ts, d :: ds, i => (d, t.cx) :: dayXList W n ts ds (i + 1)

/-- `day_x_map`: association list from day number to anchor position. -/
def dayXMap (dts : List Token) (days : List ℕ) (W : ℚ) : List (ℕ × ℚ) :=
  dayXList W days.length dts days 0

/-- Dictionary lookup in the day→anchor map. -/
def lookupX : List (ℕ × ℚ) → ℕ → Option ℚ
  | [], _ => none
  | (k, v) :: rest, d => if k = d then some v else lookupX rest d

/-! ### Cell assigner (lines 368–388) -/

/-- Shift-row membership (line 372): strictly within the tolerance band and
the uppercased text contains a shift-alphabet character. -/
def shiftTokens (tokens : List Token) (targetY : ℚ) (tol : ℤ) : List Token :=
  tokens.filter (fun t =>
    decide (|t.cy - targetY| < (tol : ℚ)) && (firstShiftChar (upperL t.text)).isSome)

/-- `min(days, key=distance)`: the day whose anchor is closest to `x`; the
first minimum wins, matching Python's `min`. -/
def closestDay (days : List ℕ) (xm : ℕ → ℚ) (x : ℚ) : ℕ :=
  match days with
  | [] => 0
  | d :: ds => ds.foldl (fun best d2 => if |x - xm d2| < |x - xm best| then d2 else best) d

/-- Dictionary lookup in the day→(code, confidence) map. -/
def lookupDay : List (ℕ × Char × ℚ) → ℕ → Option (Char × ℚ)
  | [], _ => none
  | (k, v) :: rest, d => if k = d then some v else lookupDay rest d

/-- In-place value replacement for an existing key (Python dict assignment
keeps the key's insertion position). -/
def updateDay : List (ℕ × Char × ℚ) → ℕ → Char × ℚ → List (ℕ × Char × ℚ)
  | [], _, _ => []
  | (k, v) :: rest, d, w => if k = d then (k, w) :: rest else (k, v) :: updateDay rest d w

/-- The shift code extracted from a token: the first `M`/`T`/`N` in its
uppercased text (line 382–383; an absent match gives the empty code, which is
not in `SHIFT_MAP`). -/
def codeOf (t : Token) : Option Char :=
  firstShiftChar (upperL t.text)

/-- One iteration of the assignment loop (lines 377–388): find the closest
day, extract the code, and insert/overwrite keeping the higher confidence. -/
def shiftStep (days : List ℕ) (xm : ℕ → ℚ) (m : List (ℕ × Char × ℚ)) (t : Token) :
    List (ℕ × Char × ℚ) :=
  let d := closestDay days xm t.cx
  match codeOf t with
  | none => m
  | some c =>
    if (shiftMap c).isSome then
      match lookupDay m d with
      | none => m ++ [(d, c, t.conf)]
      | some p => if p.2 < t.conf then updateDay m d (c, t.conf) else m
    else m

/-- `day_shift_map` built over the shift tokens in order. -/
def buildShiftMap (days : List ℕ) (xm : ℕ → ℚ) (ts : List Token) : List (ℕ × Char × ℚ) :=
  ts.foldl (shiftStep days xm) []

/-! ### Calendar and timestamps (record builder, lines 390–432) -/

/-- Gregorian leap year, as in Python's `calendar`/`datetime`. -/
def isLeap (y : ℕ) : Bool :=
  (y % 4 = 0 && y % 100 ≠ 0) || y % 400 = 0

/-- Number of days in a month. -/
def daysInMonth (y m : ℕ) : ℕ :=
  if m = 2 then (if isLeap y then 29 else 28)
  else if m = 4 ∨ m = 6 ∨ m = 9 ∨ m = 11 then 30
  else 31

/-- Whether `datetime.date(y, m, d)` succeeds. -/
def validDate (y m d : ℕ) : Bool :=
  1 ≤ y && y ≤ 9999 && 1 ≤ m && m ≤ 12 && 1 ≤ d && d ≤ daysInMonth y m

/-- A wall-clock timestamp, as in `datetime.datetime` down to minutes. -/
structure DT where
  year : ℕ
  month : ℕ
  day : ℕ
  hour : ℕ
  minute : ℕ
  deriving DecidableEq, Repr

/-- `dt + timedelta(hours=h)` for the small offsets the record builder uses
(at most one day of rollover, as with `22:00 + 8h`). -/
def addHours (dt : DT) (h : ℕ) : DT :=
  let t := dt.hour + h
  if t < 24 then { dt with hour := t }
  else if dt.day + 1 ≤ daysInMonth dt.year dt.month then
    { dt with day := dt.day + 1, hour := t - 24 }
  else if dt.month = 12 then
    { year := dt.year + 1, month := 1, day := 1, hour := t - 24, minute := dt.minute }
  else
    { dt with month := dt.month + 1, day := 1, hour := t - 24 }

/-- Zero-padded decimal with at least two digits. -/
def pad2 (n : ℕ) : String :=
  if n < 10 then "0" ++ toString n else toString n

/-- Zero-padded decimal with at least four digits (years in use are ≥ 1000). -/
def pad4 (n : ℕ) : String :=
  if n < 10 then "000" ++ toString n
  else if n < 100 then "00" ++ toString n
  else if n < 1000 then "0" ++ toString n
  else toString n

/-- `date.isoformat()`. -/
def isoDate (y m d : ℕ) : String :=
  pad4 y ++ "-" ++ pad2 m ++ "-" ++ pad2 d

/-- `strftime("%Y-%m-%d %H:%M")`. -/
def fmtDT (dt : DT) : String :=
  pad4 dt.year ++ "-" ++ pad2 dt.month ++ "-" ++ pad2 dt.day ++ " " ++
    pad2 dt.hour ++ ":" ++ pad2 dt.minute

/-- Rata-die day number of a date (day 1 = 0001-01-01, a Monday). -/
def rataDie (y m d : ℕ) : ℕ :=
  let py := y - 1
  let beforeYear := 365 * py + py / 4 + py / 400 - py / 100
  let beforeMonth := ((List.range (m - 1)).map (fun k => daysInMonth y (k + 1))).sum
  beforeYear + beforeMonth + d

/-- `strftime("%a")`: weekday abbreviation. -/
def dowAbbrev (y m d : ℕ) : String :=
  ["Mon", "Tue", "Wed", "Thu", "Fri", "Sat", "Sun"].getD ((rataDie y m d + 6) % 7) ""

/-- One output record (`rec` dict, lines 422–431). -/
structure ShiftRecord where
  person : String
  date : String
  dow : String
  shiftCode : String
  shiftType : String
  startS : String
  endS : String
  hours : ℤ
  deriving DecidableEq, Repr

/-- Build the record for one valid `(day, code)` assignment: the `Night`
branch hardcodes a 22:00 start and a start+8h end; other shifts run from
`start_h` to `end_h` on the same day. -/
def mkRecord (y m d : ℕ) (code : Char) (label : String) (startH endH : ℕ) : ShiftRecord :=
  if label = "Night" then
    let startDT : DT := ⟨y, m, d, 22, 0⟩
    { person := TARGET_NAME
      date := isoDate y m d
      dow := dowAbbrev y m d
      shiftCode := String.mk [code]
      shiftType := label
      startS := fmtDT startDT
      endS := fmtDT (addHours startDT 8)
      hours := 8 }
  else
    { person := TARGET_NAME
      date := isoDate y m d
      dow := dowAbbrev y m d
      shiftCode := String.mk [code]
      shiftType := label
      startS := fmtDT ⟨y, m, d, startH, 0⟩
      endS := fmtDT ⟨y, m, d, endH, 0⟩
      hours := (endH : ℤ) - (startH : ℤ) }

/-- The record-building loop (lines 401–432): look up the shift table, skip
entries whose day is not a valid calendar date, emit a record otherwise. -/
def buildRecords (y m : ℕ) : List (ℕ × Char × ℚ) → List ShiftRecord
  | [] => []
  | (day, code, _) :: rest =>
    match shiftMap code with
    | none => buildRecords y m rest
    | some (label, startH, endH) =>
      if validDate y m day then
        mkRecord y m day code label startH endH :: buildRecords y m rest
      else
        buildRecords y m rest

/-! ### The full parse (lines 259–284 and 287–436) -/

/-- The result structure (`parsed` dict). -/
structure Parsed where
  person : String
  year : ℕ
  month : ℕ
  days : List ℕ
  records : List ShiftRecord
  deriving DecidableEq, Repr

/-- `_bbox_map_parse`: the whole bounding-box parse over raw OCR detections.
`y`/`m` stand for `date.today()`'s year and month, `W` for `cv_img.shape[1]`.
`Except.error` models an uncaught Python exception, `Except.ok none` the
`return None` outcomes. -/
def bboxMapParse (y m : ℕ) (W : ℚ) (res : List RawDetection) (days : List ℕ) :
    Except String (Option Parsed) :=
  match res with
  | [] => .ok none
  | _ :: _ =>
    match ingest res with
    | .error e => .error e
    | .ok tokens =>
      match locateTarget tokens with
      | none => .ok none
      | some target =>
        let targetY := target.cy
        let tol := yTol tokens
        let dts := sortByCx (tokens.filter (fun t =>
          decide (t.cy < targetY - (tol : ℚ)) && containsDigit t.text))
        let dxm := dayXMap dts days W
        let xm := fun d => (lookupX dxm d).getD 0
        let sts := shiftTokens tokens targetY tol
        let dsm := buildShiftMap days xm sts
        .ok (some ⟨TARGET_NAME, y, m, days, buildRecords y m dsm⟩)

/-- `days = list(range(1, 32))`. -/
def days31 : List ℕ :=
  (List.range 31).map (· + 1)

/-- The empty fallback structure `parse_schedule` returns when the bbox parse
yields `None`. -/
def emptyParsed (y m : ℕ) : Parsed :=
  ⟨TARGET_NAME, y, m, days31, []⟩

/-- `parse_schedule`: run the bbox parse over days 1..31 and replace an absent
result with the empty structure. An exception escaping `_bbox_map_parse`
propagates. -/
def parseSchedule (y m : ℕ) (W : ℚ) (res : List RawDetection) : Except String Parsed :=
  match bboxMapParse y m W res days31 with
  | .error e => .error e
  | .ok none => .ok (emptyParsed y m)
  | .ok (some p) => .ok p

/-! ### Lemmas about sorting and deduplication -/

theorem mem_dedupSorted : ∀ (l : List ℤ) (x : ℤ), x ∈ dedupSorted l ↔ x ∈ l := by
  intro l
  induction l with
  | nil => intro x; simp [dedupSorted]
  | cons a t ih =>
    intro x
    match t with
    | [] => simp [dedupSorted]
    | b :: rest =>
      by_cases hab : a = b
      · subst hab
        rw [dedupSorted, if_pos rfl, ih x]
        simp
      · rw [dedupSorted, if_neg hab]
        simp only [List.mem_cons]
        rw [ih x]
        simp [List.mem_cons]

theorem sorted_dedupSorted : ∀ l : List ℤ, l.Sorted (· ≤ ·) →
    (dedupSorted l).Sorted (· < ·) := by
  intro l
  induction l with
  | nil => intro _; simp [dedupSorted]
  | cons a t ih =>
    intro hs
    rw [List.sorted_cons] at hs
    match t with
    | [] => simp [dedupSorted]
    | b :: rest =>
      by_cases hab : a = b
      · subst hab
        rw [dedupSorted, if_pos rfl]
        exact ih hs.2
      · rw [dedupSorted, if_neg hab]
        rw [List.sorted_cons]
        refine ⟨?_, ih hs.2⟩
        intro x hx
        rw [mem_dedupSorted] at hx
        have hax : a ≤ x := hs.1 x hx
        rcases List.mem_cons.mp hx with hxb | hxr
        · subst hxb; exact lt_of_le_of_ne hax hab
        · have hbx : b ≤ x := (List.sorted_cons.mp hs.2).1 x hxr
          have hab' : a ≤ b := hs.1 b (List.mem_cons_self b rest)
          exact lt_of_le_of_ne hax (by intro h; subst h; exact hab (le_antisymm hab' hbx))

theorem mem_sortInts (l : List ℤ) (x : ℤ) : x ∈ sortInts l ↔ x ∈ l :=
  (List.perm_insertionSort (· ≤ ·) l).mem_iff

theorem sorted_sortInts (l : List ℤ) : (sortInts l).Sorted (· ≤ ·) :=
  List.sorted_insertionSort (· ≤ ·) l

theorem mem_ysCenters (tokens : List Token) (z : ℤ) :
    z ∈ ysCenters tokens ↔ ∃ t ∈ tokens, pyRound t.cy = z := by
  rw [ysCenters, mem_dedupSorted, mem_sortInts, List.mem_map]

theorem sorted_ysCenters (tokens : List Token) : (ysCenters tokens).Sorted (· < ·) :=
  sorted_dedupSorted _ (sorted_sortInts _)

/-! ### Claim C2: row tolerance formula -/

/-- Claim C2 as stated is false: the source takes the upper-middle element of
the sorted gap list (index `len // 2`), not the lower-middle one, and
truncates `0.8 × median_gap` with `int(...)` instead of rounding. On centers
`{0, 1, 101}` the code yields 80 where the claimed formula yields 25, and on
centers `{0, 32, 64, 200}` (a shared median of 32) the code yields 25 where
the claimed formula yields 26. -/
theorem c2_tolerance_counterexample :
    yTol [⟨"a", 1, 0, 0⟩, ⟨"b", 1, 0, 1⟩, ⟨"c", 1, 0, 101⟩] = 80 ∧
    tolClaimC2 [⟨"a", 1, 0, 0⟩, ⟨"b", 1, 0, 1⟩, ⟨"c", 1, 0, 101⟩] = 25 ∧
    yTol [⟨"a", 1, 0, 0⟩, ⟨"b", 1, 0, 32⟩, ⟨"c", 1, 0, 64⟩, ⟨"d", 1, 0, 200⟩] = 25 ∧
    tolClaimC2 [⟨"a", 1, 0, 0⟩, ⟨"b", 1, 0, 32⟩, ⟨"c", 1, 0, 64⟩, ⟨"d", 1, 0, 200⟩] = 26 := by
  refine ⟨?_, ?_, ?_, ?_⟩
  · norm_num [yTol, ysCenters, pyRound, ratFloor, sortInts, dedupSorted, gapsOf,
      List.insertionSort, List.orderedInsert]
  · norm_num [tolClaimC2, roundQ, ysCenters, pyRound, ratFloor, sortInts, dedupSorted,
      gapsOf, List.insertionSort, List.orderedInsert]
    decide
  · norm_num [yTol, ysCenters, pyRound, ratFloor, sortInts, dedupSorted, gapsOf,
      List.insertionSort, List.orderedInsert]
  · norm_num [tolClaimC2, roundQ, ysCenters, pyRound, ratFloor, sortInts, dedupSorted,
      gapsOf, List.insertionSort, List.orderedInsert]
    decide

/-- Claim C2 (amended): the distinct rounded centers are exactly the rounded
token centers, kept strictly sorted; with fewer than two of them the
tolerance is the fixed 35; with at least two it is
`max(25, ⌊0.8 × median_gap⌋)` where `median_gap` is the upper-middle element
(index `len // 2`) of the sorted list of successive gaps. -/
theorem c2_tolerance_amended (tokens : List Token) :
    (∀ z : ℤ, z ∈ ysCenters tokens ↔ ∃ t ∈ tokens, pyRound t.cy = z) ∧
    (ysCenters tokens).Sorted (· < ·) ∧
    ((ysCenters tokens).length < 2 → yTol tokens = 35) ∧
    (2 ≤ (ysCenters tokens).length →
      yTol tokens =
        max 25 ((4 * (sortInts (gapsOf (ysCenters tokens))).getD
          ((gapsOf (ysCenters tokens)).length / 2) 40) / 5)) := by
  refine ⟨mem_ysCenters tokens, sorted_ysCenters tokens, ?_, ?_⟩
  · intro h
    rw [yTol, if_neg (by omega)]
  · intro h
    rw [yTol, if_pos h]

/-- Witness for the amended C2 at concrete inputs: a single-center token list
falls back to 35, and a multi-center list takes the formula branch. -/
theorem c2_tolerance_amended_witness :
    yTol [⟨"a", 1, 0, 5⟩] = 35 ∧
    yTol [⟨"a", 1, 0, 0⟩, ⟨"b", 1, 0, 1⟩, ⟨"c", 1, 0, 101⟩] =
      max 25 ((4 * (sortInts (gapsOf (ysCenters [⟨"a", 1, 0, 0⟩, ⟨"b", 1, 0, 1⟩,
        ⟨"c", 1, 0, 101⟩]))).getD
        ((gapsOf (ysCenters [⟨"a", 1, 0, 0⟩, ⟨"b", 1, 0, 1⟩, ⟨"c", 1, 0, 101⟩])).length / 2)
        40) / 5) := by
  constructor
  · exact (c2_tolerance_amended [⟨"a", 1, 0, 5⟩]).2.2.1 (by
      norm_num [ysCenters, pyRound, ratFloor, sortInts, dedupSorted,
        List.insertionSort, List.orderedInsert])
  · exact (c2_tolerance_amended [⟨"a", 1, 0, 0⟩, ⟨"b", 1, 0, 1⟩, ⟨"c", 1, 0, 101⟩]).2.2.2 (by
      norm_num [ysCenters, pyRound, ratFloor, sortInts, dedupSorted,
        List.insertionSort, List.orderedInsert])

/-! ### Claim C7: the cell assigner's row band -/

theorem firstShiftChar_isSome (l : List Char) :
    (firstShiftChar l).isSome = true ↔ ∃ c ∈ l, c = 'M' ∨ c = 'T' ∨ c = 'N' := by
  induction l with
  | nil => simp [firstShiftChar]
  | cons c cs ih =>
    by_cases hc : c = 'M' ∨ c = 'T' ∨ c = 'N'
    · simp only [firstShiftChar, if_pos hc, Option.isSome_some, List.mem_cons]
      exact iff_of_true trivial ⟨c, Or.inl rfl, hc⟩
    · simp only [firstShiftChar, if_neg hc, List.mem_cons]
      rw [ih]
      constructor
      · rintro ⟨d, hd, hmtn⟩; exact ⟨d, Or.inr hd, hmtn⟩
      · rintro ⟨d, hd | hd, hmtn⟩
        · subst hd; exact absurd hmtn hc
        · exact ⟨d, hd, hmtn⟩

/-- Claim C7 as stated is false on the boundary: membership in the row band
uses the strict comparison `abs(cy - target_y) < y_tol`, so a token lying at
distance exactly the tolerance from the target row is NOT collected, even
though its text contains a shift-alphabet character. -/
theorem c7_row_band_counterexample :
    shiftTokens [⟨"M", 1, 0, 25⟩] 0 25 = [] ∧
    |(25 : ℚ) - 0| ≤ ((25 : ℤ) : ℚ) ∧
    firstShiftChar (upperL "M") = some 'M' := by
  refine ⟨?_, by norm_num, by decide⟩
  norm_num [shiftTokens, firstShiftChar, upperL]

/-- Claim C7 (amended): the cell assigner collects exactly the tokens whose
`cy` lies strictly inside the open interval
`(targetY − tolerance, targetY + tolerance)` and whose uppercased text
contains at least one character of the shift-code alphabet. -/
theorem c7_row_band_amended (tokens : List Token) (targetY : ℚ) (tol : ℤ) (t : Token) :
    t ∈ shiftTokens tokens targetY tol ↔
      t ∈ tokens ∧ (targetY - tol < t.cy ∧ t.cy < targetY + tol) ∧
        ∃ c ∈ upperL t.text, c = 'M' ∨ c = 'T' ∨ c = 'N' := by
  rw [shiftTokens, List.mem_filter, Bool.and_eq_true, decide_eq_true_iff,
    abs_sub_lt_iff, firstShiftChar_isSome]
  constructor
  · rintro ⟨hmem, ⟨h1, h2⟩, hc⟩
    exact ⟨hmem, ⟨by linarith, by linarith⟩, hc⟩
  · rintro ⟨hmem, ⟨h1, h2⟩, hc⟩
    exact ⟨hmem, ⟨by linarith, by linarith⟩, hc⟩

/-! ### Claim C5: the row locator -/

theorem pickMax_mem : ∀ (xs : List Token) (x : Token), pickMax x xs ∈ x :: xs := by
  intro xs
  induction xs with
  | nil => intro x; simp [pickMax]
  | cons u us ih =>
    intro x
    have step : pickMax x (u :: us) = pickMax (if x.conf < u.conf then u else x) us := rfl
    rw [step]
    rcases List.mem_cons.mp (ih (if x.conf < u.conf then u else x)) with h | h
    · rw [h]
      by_cases hc : x.conf < u.conf
      · rw [if_pos hc]
        exact List.mem_cons.mpr (Or.inr (List.mem_cons_self u us))
      · rw [if_neg hc]
        exact List.mem_cons_self x (u :: us)
    · exact List.mem_cons.mpr (Or.inr (List.mem_cons.mpr (Or.inr h)))

theorem pickMax_ge : ∀ (xs : List Token) (x u : Token), u ∈ x :: xs →
    u.conf ≤ (pickMax x xs).conf := by
  intro xs
  induction xs with
  | nil =>
    intro x u hu
    rcases List.mem_cons.mp hu with h | h
    · subst h; exact le_refl _
    · simp at h
  | cons v vs ih =>
    intro x u hu
    have step : pickMax x (v :: vs) = pickMax (if x.conf < v.conf then v else x) vs := rfl
    by_cases hc : x.conf < v.conf
    · rw [step, if_pos hc]
      rcases List.mem_cons.mp hu with h | h
      · rw [h]
        exact le_trans (le_of_lt hc) (ih v v (List.mem_cons_self v vs))
      · exact ih v u h
    · rw [step, if_neg hc]
      rcases List.mem_cons.mp hu with h | h
      · rw [h]
        exact ih x x (List.mem_cons_self x vs)
      · rcases List.mem_cons.mp h with h2 | h2
        · rw [h2]
          exact le_trans (le_of_not_lt hc) (ih x x (List.mem_cons_self x vs))
        · exact ih x u (List.mem_cons.mpr (Or.inr h2))

/-- Claim C5: the row locator filters tokens containing the target name
case-insensitively; only when that set is empty does it fall back to the
first-name matches; among the candidates the selected token has maximal
confidence (the first maximum, as Python's `max`). -/
theorem c5_row_locator (tokens : List Token) :
    (tokens.filter matchesFull ≠ [] →
      ∃ t, locateTarget tokens = some t ∧ t ∈ tokens.filter matchesFull ∧
        ∀ u ∈ tokens.filter matchesFull, u.conf ≤ t.conf) ∧
    (tokens.filter matchesFull = [] → tokens.filter matchesFirst ≠ [] →
      ∃ t, locateTarget tokens = some t ∧ t ∈ tokens.filter matchesFirst ∧
        ∀ u ∈ tokens.filter matchesFirst, u.conf ≤ t.conf) := by
  constructor
  · intro hne
    match hf : tokens.filter matchesFull with
    | [] => exact absurd hf hne
    | c :: cs =>
      refine ⟨pickMax c cs, ?_, ?_, ?_⟩
      · rw [locateTarget, hf]
        simp [List.isEmpty]
      · exact pickMax_mem cs c
      · intro u hu; exact pickMax_ge cs c u hu
  · intro hf hne
    match hf2 : tokens.filter matchesFirst with
    | [] => exact absurd hf2 hne
    | c :: cs =>
      refine ⟨pickMax c cs, ?_, ?_, ?_⟩
      · rw [locateTarget, hf, hf2]
        simp [List.isEmpty]
      · exact pickMax_mem cs c
      · intro u hu; exact pickMax_ge cs c u hu

/-- Witness for C5 at the spec's own example: with tokens `NINA X` and
`OTHER Y` no full-name match exists, the first-name fallback fires, and the
fallback candidate set is exactly the `NINA X` token. -/
theorem c5_row_locator_witness :
    List.filter matchesFull [⟨"NINA X", 1, 0, 0⟩, ⟨"OTHER Y", 1, 0, 0⟩] = [] ∧
    List.filter matchesFirst [⟨"NINA X", 1, 0, 0⟩, ⟨"OTHER Y", 1, 0, 0⟩] =
      [⟨"NINA X", 1, 0, 0⟩] ∧
    ∃ t, locateTarget [⟨"NINA X", 1, 0, 0⟩, ⟨"OTHER Y", 1, 0, 0⟩] = some t ∧
      t ∈ List.filter matchesFirst [⟨"NINA X", 1, 0, 0⟩, ⟨"OTHER Y", 1, 0, 0⟩] ∧
      ∀ u ∈ List.filter matchesFirst [⟨"NINA X", 1, 0, 0⟩, ⟨"OTHER Y", 1, 0, 0⟩],
        u.conf ≤ t.conf := by
  have hfull : List.filter matchesFull [⟨"NINA X", 1, 0, 0⟩, ⟨"OTHER Y", 1, 0, 0⟩] =
      ([] : List Token) := by decide
  have hfirst : List.filter matchesFirst [⟨"NINA X", 1, 0, 0⟩, ⟨"OTHER Y", 1, 0, 0⟩] =
      [⟨"NINA X", 1, 0, 0⟩] := by decide
  refine ⟨hfull, hfirst, ?_⟩
  exact (c5_row_locator [⟨"NINA X", 1, 0, 0⟩, ⟨"OTHER Y", 1, 0, 0⟩]).2 hfull
    (by rw [hfirst]; simp)

/-! ### Claim C3: data-quality problems never raise -/

/-- Claim C3: an empty detection list, and a retained-token list in which
neither the full target name nor its first name occurs case-insensitively,
both make the parse return the empty structure (an `Except.ok`, never an
`Except.error`), whose records list is empty. -/
theorem c3_data_quality_no_throw :
    (∀ (y m : ℕ) (W : ℚ), parseSchedule y m W [] = .ok (emptyParsed y m)) ∧
    (∀ (y m : ℕ) (W : ℚ) (res : List RawDetection) (tokens : List Token),
      ingest res = .ok tokens →
      (∀ t ∈ tokens, matchesFull t = false ∧ matchesFirst t = false) →
      parseSchedule y m W res = .ok (emptyParsed y m)) ∧
    (∀ y m : ℕ, (emptyParsed y m).records = []) := by
  refine ⟨fun y m W => rfl, ?_, fun y m => rfl⟩
  intro y m W res tokens hing hno
  match res with
  | [] => rfl
  | r :: rs =>
    have hfull : tokens.filter matchesFull = [] := by
      rw [List.filter_eq_nil_iff]
      intro t ht
      simp [(hno t ht).1]
    have hfirst : tokens.filter matchesFirst = [] := by
      rw [List.filter_eq_nil_iff]
      intro t ht
      simp [(hno t ht).2]
    have hloc : locateTarget tokens = none := by
      rw [locateTarget, hfull, hfirst]
      simp [List.isEmpty]
    simp [parseSchedule, bboxMapParse, hing, hloc]

/-- Witness for C3: a single well-formed but unrelated detection yields the
empty structure. -/
theorem c3_data_quality_no_throw_witness :
    ingest [.det3 [(0, 0), (4, 0), (4, 4), (0, 4)] "XYZ" (.num 1)] =
      .ok [mkToken [(0, 0), (4, 0), (4, 4), (0, 4)] "XYZ" 1] ∧
    parseSchedule 2025 12 100 [.det3 [(0, 0), (4, 0), (4, 4), (0, 4)] "XYZ" (.num 1)] =
      .ok (emptyParsed 2025 12) := by
  have hing : ingest [.det3 [(0, 0), (4, 0), (4, 4), (0, 4)] "XYZ" (.num 1)] =
      .ok [mkToken [(0, 0), (4, 0), (4, 4), (0, 4)] "XYZ" 1] := by
    norm_num [ingest, MIN_TOKEN_CONFIDENCE]
  refine ⟨hing, ?_⟩
  refine c3_data_quality_no_throw.2.1 2025 12 100 _ _ hing ?_
  intro t ht
  rw [List.mem_singleton] at ht
  rw [ht]
  constructor <;> decide

/-! ### Claim C10: `parse_schedule` always returns a full structure -/

theorem ingest_ok_of_wf : ∀ res : List RawDetection, (∀ d ∈ res, WellFormedDet d) →
    ∃ ts, ingest res = .ok ts := by
  intro res
  induction res with
  | nil => intro _; exact ⟨[], rfl⟩
  | cons r rs ih =>
    intro h
    obtain ⟨ts, hts⟩ := ih (fun d hd => h d (List.mem_cons.mpr (Or.inr hd)))
    match r with
    | .other n => exact absurd (h _ (List.mem_cons_self _ _)) (by simp [WellFormedDet])
    | .det3 bbox text .nonNum =>
      exact absurd (h _ (List.mem_cons_self _ _)) (by simp [WellFormedDet])
    | .det3 bbox text (.num q) =>
      refine ⟨if q < MIN_TOKEN_CONFIDENCE then ts else mkToken bbox text q :: ts, ?_⟩
      rw [ingest, hts]

/-- Claim C10: over well-formed OCR detections (as the OCR collaborator
produces), `parse_schedule` always returns a structure carrying the
configured person name, the given year and month, and the full day list
1..31 — never an absent value and never an error. -/
theorem c10_parse_schedule_total (y m : ℕ) (W : ℚ) (res : List RawDetection)
    (h : ∀ d ∈ res, WellFormedDet d) :
    ∃ p : Parsed, parseSchedule y m W res = .ok p ∧ p.person = TARGET_NAME ∧
      p.year = y ∧ p.month = m ∧ p.days = days31 := by
  obtain ⟨ts, hts⟩ := ingest_ok_of_wf res h
  match res with
  | [] => exact ⟨emptyParsed y m, rfl, rfl, rfl, rfl, rfl⟩
  | r :: rs =>
    cases hlt : locateTarget ts with
    | none =>
      refine ⟨emptyParsed y m, ?_, rfl, rfl, rfl, rfl⟩
      simp [parseSchedule, bboxMapParse, hts, hlt]
    | some target =>
      refine ⟨⟨TARGET_NAME, y, m, days31, buildRecords y m (buildShiftMap days31
        (fun d => (lookupX (dayXMap (sortByCx (ts.filter (fun t =>
          decide (t.cy < target.cy - (yTol ts : ℚ)) && containsDigit t.text)))
          days31 W) d).getD 0)
        (shiftTokens ts target.cy (yTol ts)))⟩, ?_, rfl, rfl, rfl, rfl⟩
      simp [parseSchedule, bboxMapParse, hts, hlt]

/-- Witness for C10 at the empty detection list. -/
theorem c10_parse_schedule_total_witness :
    ∃ p : Parsed, parseSchedule 2025 12 100 [] = .ok p ∧ p.person = TARGET_NAME ∧
      p.year = 2025 ∧ p.month = 12 ∧ p.days = days31 :=
  c10_parse_schedule_total 2025 12 100 [] (by intro d hd; simp at hd)

/-! ### Claim C9: malformed detections -/

/-- Claim C9 as stated is false: the ingestion loop `for bbox, text, conf in
res` unpacks each detection and converts its confidence with `float(...)`
without any guard, so a detection with the wrong arity or a non-numeric
confidence raises (modelled as `Except.error`) instead of being skipped; were
it skipped, `ingest [other 2]` would equal `ingest [] = ok []`, and the whole
bbox parse fails rather than continuing. -/
theorem c9_malformed_counterexample :
    ingest [.other 2] = .error "cannot unpack detection" ∧
    ingest ([] : List RawDetection) = .ok [] ∧
    ingest [.other 2] ≠ ingest ([] : List RawDetection) ∧
    ingest [.det3 [] "x" .nonNum] = .error "confidence is not a float" ∧
    bboxMapParse 2025 12 100 [.other 2] days31 = .error "cannot unpack detection" := by
  refine ⟨rfl, rfl, ?_, rfl, ?_⟩
  · intro h
    rw [show ingest [RawDetection.other 2] = .error "cannot unpack detection" from rfl,
      show ingest ([] : List RawDetection) = .ok [] from rfl] at h
    exact Except.noConfusion h
  · simp [bboxMapParse, ingest]

/-- Claim C9 (amended): a detection with fewer than 3 fields or a non-numeric
confidence makes token ingestion fail with an error as soon as it is reached
(any well-formed detections before it notwithstanding); the parse does not
continue over the remaining detections. -/
theorem c9_malformed_amended (pre : List RawDetection) (d : RawDetection)
    (suf : List RawDetection) (hpre : ∀ x ∈ pre, WellFormedDet x)
    (hd : ¬ WellFormedDet d) :
    ∃ e, ingest (pre ++ d :: suf) = .error e := by
  induction pre with
  | nil =>
    match d with
    | .other n => exact ⟨"cannot unpack detection", rfl⟩
    | .det3 bbox text .nonNum => exact ⟨"confidence is not a float", rfl⟩
    | .det3 bbox text (.num q) => exact absurd (by simp [WellFormedDet]) hd
  | cons r rs ih =>
    obtain ⟨e, he⟩ := ih (fun x hx => hpre x (List.mem_cons.mpr (Or.inr hx)))
    cases r with
    | other n => exact absurd (hpre _ (List.mem_cons_self _ _)) (by simp [WellFormedDet])
    | det3 bbox text conf =>
      cases conf with
      | nonNum => exact absurd (hpre _ (List.mem_cons_self _ _)) (by simp [WellFormedDet])
      | num q =>
        refine ⟨e, ?_⟩
        rw [List.cons_append, ingest, he]

/-- Witness for the amended C9: one good detection followed by a 2-tuple. -/
theorem c9_malformed_amended_witness :
    ∃ e, ingest [.det3 [(0, 0), (4, 0), (4, 4), (0, 4)] "ok" (.num 1), .other 2] =
      .error e :=
  c9_malformed_amended [.det3 [(0, 0), (4, 0), (4, 4), (0, 4)] "ok" (.num 1)] (.other 2) []
    (by intro x hx; rw [List.mem_singleton] at hx; rw [hx]; trivial)
    (by simp [WellFormedDet])

/-! ### Claims C1 and C8: the record builder -/

theorem mkRecord_date (y m d : ℕ) (code : Char) (label : String) (startH endH : ℕ) :
    (mkRecord y m d code label startH endH).date = isoDate y m d := by
  rw [mkRecord]
  split <;> rfl

theorem mkRecord_night (y m d : ℕ) (code : Char) (startH endH : ℕ) :
    mkRecord y m d code "Night" startH endH =
      ⟨TARGET_NAME, isoDate y m d, dowAbbrev y m d, String.mk [code], "Night",
        fmtDT ⟨y, m, d, 22, 0⟩, fmtDT (addHours ⟨y, m, d, 22, 0⟩ 8), 8⟩ := by
  rw [mkRecord, if_pos rfl]

theorem buildRecords_cons_none (y m d : ℕ) (c : Char) (q : ℚ)
    (rest : List (ℕ × Char × ℚ)) (hsm : shiftMap c = none) :
    buildRecords y m ((d, c, q) :: rest) = buildRecords y m rest := by
  simp [buildRecords, hsm]

theorem buildRecords_cons_some (y m d : ℕ) (c : Char) (q : ℚ) (label : String)
    (startH endH : ℕ) (rest : List (ℕ × Char × ℚ))
    (hsm : shiftMap c = some (label, startH, endH)) (hv : validDate y m d = true) :
    buildRecords y m ((d, c, q) :: rest) =
      mkRecord y m d c label startH endH :: buildRecords y m rest := by
  simp [buildRecords, hsm, hv]

theorem buildRecords_cons_invalid (y m d : ℕ) (c : Char) (q : ℚ) (label : String)
    (startH endH : ℕ) (rest : List (ℕ × Char × ℚ))
    (hsm : shiftMap c = some (label, startH, endH)) (hv : validDate y m d = false) :
    buildRecords y m ((d, c, q) :: rest) = buildRecords y m rest := by
  simp [buildRecords, hsm, hv]

theorem mem_buildRecords_cons (y m : ℕ) (e : ℕ × Char × ℚ) (rest : List (ℕ × Char × ℚ))
    (r : ShiftRecord) (h : r ∈ buildRecords y m rest) :
    r ∈ buildRecords y m (e :: rest) := by
  obtain ⟨d, c, q⟩ := e
  cases hsm : shiftMap c with
  | none => rw [buildRecords_cons_none y m d c q rest hsm]; exact h
  | some v =>
    obtain ⟨label, startH, endH⟩ := v
    by_cases hv : validDate y m d = true
    · rw [buildRecords_cons_some y m d c q label startH endH rest hsm hv]
      exact List.mem_cons.mpr (Or.inr h)
    · rw [buildRecords_cons_invalid y m d c q label startH endH rest hsm (by simpa using hv)]
      exact h

/-- Claim C1: every assignment whose shift code has `endHour < startHour` in
the shift table (only the overnight code, whose label is `Night`) and whose
day is a valid calendar date yields a record starting at `startHour:00` on
that day, ending exactly 8 hours later (with calendar rollover), with an
`hours` field of 8. -/
theorem c1_overnight_record (y m : ℕ) (entries : List (ℕ × Char × ℚ)) (d : ℕ)
    (code : Char) (conf : ℚ) (label : String) (startH endH : ℕ)
    (hmem : (d, code, conf) ∈ entries)
    (hsm : shiftMap code = some (label, startH, endH))
    (hover : endH < startH)
    (hvalid : validDate y m d = true) :
    ∃ r ∈ buildRecords y m entries,
      r.date = isoDate y m d ∧
      r.startS = fmtDT ⟨y, m, d, startH, 0⟩ ∧
      r.endS = fmtDT (addHours ⟨y, m, d, startH, 0⟩ 8) ∧
      r.hours = 8 := by
  have hnight : label = "Night" ∧ startH = 22 ∧ endH = 6 := by
    rw [shiftMap] at hsm
    by_cases hM : code = 'M'
    · rw [if_pos hM] at hsm
      simp only [Option.some.injEq, Prod.mk.injEq] at hsm
      obtain ⟨h1, h2, h3⟩ := hsm
      exact absurd hover (by omega)
    · rw [if_neg hM] at hsm
      by_cases hT : code = 'T'
      · rw [if_pos hT] at hsm
        simp only [Option.some.injEq, Prod.mk.injEq] at hsm
        obtain ⟨h1, h2, h3⟩ := hsm
        exact absurd hover (by omega)
      · rw [if_neg hT] at hsm
        by_cases hN : code = 'N'
        · rw [if_pos hN] at hsm
          simp only [Option.some.injEq, Prod.mk.injEq] at hsm
          obtain ⟨h1, h2, h3⟩ := hsm
          exact ⟨h1.symm, h2.symm, h3.symm⟩
        · rw [if_neg hN] at hsm
          exact Option.noConfusion hsm
  obtain ⟨hlabel, hstart, hend⟩ := hnight
  induction entries with
  | nil => simp at hmem
  | cons e rest ih =>
    rcases List.mem_cons.mp hmem with he | he
    · obtain rfl := he.symm
      rw [buildRecords_cons_some y m d code conf label startH endH rest hsm hvalid]
      refine ⟨mkRecord y m d code label startH endH, List.mem_cons_self _ _, ?_⟩
      rw [hlabel, mkRecord_night y m d code startH endH, hstart]
      exact ⟨rfl, rfl, rfl, rfl⟩
    · obtain ⟨r, hr, hprops⟩ := ih he
      exact ⟨r, mem_buildRecords_cons y m e rest r hr, hprops⟩

/-- Witness for C1 at the spec's example: code `N` on 2025-12-07 yields start
`2025-12-07 22:00`, end `2025-12-08 06:00` (the next calendar day), hours 8. -/
theorem c1_overnight_record_witness :
    shiftMap 'N' = some ("Night", 22, 6) ∧
    validDate 2025 12 7 = true ∧
    fmtDT ⟨2025, 12, 7, 22, 0⟩ = "2025-12-07 22:00" ∧
    fmtDT (addHours ⟨2025, 12, 7, 22, 0⟩ 8) = "2025-12-08 06:00" ∧
    ∃ r ∈ buildRecords 2025 12 [(7, ('N', 1))],
      r.date = isoDate 2025 12 7 ∧
      r.startS = fmtDT ⟨2025, 12, 7, 22, 0⟩ ∧
      r.endS = fmtDT (addHours ⟨2025, 12, 7, 22, 0⟩ 8) ∧
      r.hours = 8 := by
  refine ⟨by decide, by decide, by decide, by decide, ?_⟩
  exact c1_overnight_record 2025 12 [(7, ('N', 1))] 7 'N' 1 "Night" 22 6
    (List.mem_cons_self _ _) (by decide) (by decide) (by decide)

/-- Claim C8: entries whose day is not a valid date in the active year/month
are skipped silently — the builder's output equals its output on the valid
entries alone, and every valid entry with a known shift code still yields a
record carrying its date. -/
theorem c8_invalid_day_skip (y m : ℕ) (entries : List (ℕ × Char × ℚ)) :
    buildRecords y m entries =
      buildRecords y m (entries.filter (fun e => validDate y m e.1)) ∧
    ∀ e ∈ entries, validDate y m e.1 = true →
      ∀ label startH endH, shiftMap e.2.1 = some (label, startH, endH) →
        ∃ r ∈ buildRecords y m entries, r.date = isoDate y m e.1 := by
  constructor
  · induction entries with
    | nil => rfl
    | cons e rest ih =>
      obtain ⟨d, c, q⟩ := e
      by_cases hv : validDate y m d = true
      · rw [List.filter_cons_of_pos (by simpa using hv)]
        cases hsm : shiftMap c with
        | none =>
          rw [buildRecords_cons_none y m d c q rest hsm,
            buildRecords_cons_none y m d c q _ hsm]
          exact ih
        | some v =>
          obtain ⟨label, startH, endH⟩ := v
          rw [buildRecords_cons_some y m d c q label startH endH rest hsm hv,
            buildRecords_cons_some y m d c q label startH endH _ hsm hv, ih]
      · rw [List.filter_cons_of_neg (by simpa using hv)]
        cases hsm : shiftMap c with
        | none =>
          rw [buildRecords_cons_none y m d c q rest hsm]
          exact ih
        | some v =>
          obtain ⟨label, startH, endH⟩ := v
          rw [buildRecords_cons_invalid y m d c q label startH endH rest hsm
            (by simpa using hv)]
          exact ih
  · intro e hmem hv label startH endH hsm
    obtain ⟨d, c, q⟩ := e
    simp only at hsm hv
    induction entries with
    | nil => simp at hmem
    | cons e0 rest ih =>
      rcases List.mem_cons.mp hmem with he | he
      · obtain rfl := he.symm
        rw [buildRecords_cons_some y m d c q label startH endH rest hsm hv]
        exact ⟨mkRecord y m d c label startH endH, List.mem_cons_self _ _,
          mkRecord_date y m d c label startH endH⟩
      · obtain ⟨r, hr, hdate⟩ := ih he
        exact ⟨r, mem_buildRecords_cons y m e0 rest r hr, hdate⟩

/-- Witness for C8 at the spec's example: day 31 against April (30 days) is
dropped with no error while the valid day-10 record survives. -/
theorem c8_invalid_day_skip_witness :
    validDate 2025 4 31 = false ∧
    validDate 2025 4 10 = true ∧
    (∃ r ∈ buildRecords 2025 4 [(31, ('M', 1)), (10, ('M', 1))],
      r.date = isoDate 2025 4 10) ∧
    buildRecords 2025 4 [(31, ('M', 1)), (10, ('M', 1))] =
      buildRecords 2025 4
        (List.filter (fun e => validDate 2025 4 e.1) [(31, ('M', 1)), (10, ('M', 1))]) := by
  refine ⟨by decide, by decide, ?_, (c8_invalid_day_skip 2025 4 _).1⟩
  exact (c8_invalid_day_skip 2025 4 [(31, ('M', 1)), (10, ('M', 1))]).2 (10, ('M', 1))
    (List.mem_cons.mpr (Or.inr (List.mem_cons_self _ _))) (by decide) "Morning" 6 14 (by decide)

/-! ### Claim C4: collision resolution in the day→shift map -/

/-- The day keys of a day→(code, confidence) association list. -/
def keysOf (m : List (ℕ × Char × ℚ)) : List ℕ :=
  m.map Prod.fst

theorem keysOf_cons (e : ℕ × Char × ℚ) (rest : List (ℕ × Char × ℚ)) :
    keysOf (e :: rest) = e.1 :: keysOf rest := rfl

theorem lookupDay_eq_none_iff (m : List (ℕ × Char × ℚ)) (d : ℕ) :
    lookupDay m d = none ↔ d ∉ keysOf m := by
  induction m with
  | nil => simp [lookupDay, keysOf]
  | cons e rest ih =>
    obtain ⟨k, v⟩ := e
    rw [lookupDay, keysOf_cons]
    by_cases hk : k = d
    · subst hk
      simp
    · rw [if_neg hk, ih, List.mem_cons]
      constructor
      · intro h hor
        exact hor.elim (fun hdk => hk hdk.symm) h
      · intro h hd
        exact h (Or.inr hd)

theorem keysOf_updateDay (m : List (ℕ × Char × ℚ)) (d : ℕ) (w : Char × ℚ) :
    keysOf (updateDay m d w) = keysOf m := by
  induction m with
  | nil => rfl
  | cons e rest ih =>
    obtain ⟨k, v⟩ := e
    rw [updateDay]
    by_cases hk : k = d
    · rw [if_pos hk]
      rfl
    · rw [if_neg hk, keysOf_cons, keysOf_cons, ih]

theorem lookupDay_append_left (m l : List (ℕ × Char × ℚ)) (d : ℕ) (p : Char × ℚ)
    (h : lookupDay m d = some p) : lookupDay (m ++ l) d = some p := by
  induction m with
  | nil => exact absurd h (by simp [lookupDay])
  | cons e rest ih =>
    obtain ⟨k, v⟩ := e
    rw [List.cons_append, lookupDay]
    rw [lookupDay] at h
    by_cases hk : k = d
    · rwa [if_pos hk] at h ⊢
    · rw [if_neg hk] at h ⊢
      exact ih h

theorem lookupDay_append_self (m : List (ℕ × Char × ℚ)) (d : ℕ) (v : Char × ℚ)
    (h : lookupDay m d = none) : lookupDay (m ++ [(d, v)]) d = some v := by
  induction m with
  | nil => simp [lookupDay]
  | cons e rest ih =>
    obtain ⟨k, u⟩ := e
    rw [List.cons_append, lookupDay]
    rw [lookupDay] at h
    by_cases hk : k = d
    · rw [if_pos hk] at h
      exact Option.noConfusion h
    · rw [if_neg hk] at h ⊢
      exact ih h

theorem lookupDay_updateDay_self (m : List (ℕ × Char × ℚ)) (d : ℕ) (w : Char × ℚ)
    (p : Char × ℚ) (h : lookupDay m d = some p) :
    lookupDay (updateDay m d w) d = some w := by
  induction m with
  | nil => exact absurd h (by simp [lookupDay])
  | cons e rest ih =>
    obtain ⟨k, v⟩ := e
    rw [updateDay]
    by_cases hk : k = d
    · rw [if_pos hk, lookupDay, if_pos hk]
    · rw [lookupDay, if_neg hk] at h
      rw [if_neg hk, lookupDay, if_neg hk]
      exact ih h

theorem lookupDay_updateDay_ne (m : List (ℕ × Char × ℚ)) (d : ℕ) (w : Char × ℚ)
    (d' : ℕ) (h : d' ≠ d) : lookupDay (updateDay m d w) d' = lookupDay m d' := by
  induction m with
  | nil => rfl
  | cons e rest ih =>
    obtain ⟨k, v⟩ := e
    rw [updateDay]
    by_cases hk : k = d
    · rw [if_pos hk, lookupDay, lookupDay,
        if_neg (fun he => h (he.symm.trans hk)),
        if_neg (fun he => h (he.symm.trans hk))]
    · rw [if_neg hk, lookupDay, lookupDay]
      by_cases hk2 : k = d'
      · rw [if_pos hk2, if_pos hk2]
      · rw [if_neg hk2, if_neg hk2, ih]

theorem mem_updateDay (m : List (ℕ × Char × ℚ)) (d : ℕ) (w : Char × ℚ)
    (e : ℕ × Char × ℚ) (h : e ∈ updateDay m d w) : e ∈ m ∨ e = (d, w) := by
  induction m with
  | nil => simp [updateDay] at h
  | cons e0 rest ih =>
    obtain ⟨k, v⟩ := e0
    rw [updateDay] at h
    by_cases hk : k = d
    · rw [if_pos hk] at h
      rcases List.mem_cons.mp h with h1 | h1
      · right
        rw [h1, hk]
      · left
        exact List.mem_cons.mpr (Or.inr h1)
    · rw [if_neg hk] at h
      rcases List.mem_cons.mp h with h1 | h1
      · left
        exact List.mem_cons.mpr (Or.inl h1)
      · rcases ih h1 with h2 | h2
        · left
          exact List.mem_cons.mpr (Or.inr h2)
        · right
          exact h2

theorem shiftStep_none (days : List ℕ) (xm : ℕ → ℚ) (m : List (ℕ × Char × ℚ)) (t : Token)
    (h : codeOf t = none) : shiftStep days xm m t = m := by
  simp [shiftStep, h]

theorem shiftStep_skip (days : List ℕ) (xm : ℕ → ℚ) (m : List (ℕ × Char × ℚ)) (t : Token)
    (c : Char) (h : codeOf t = some c) (hs : (shiftMap c).isSome = false) :
    shiftStep days xm m t = m := by
  simp [shiftStep, h, hs]

theorem shiftStep_insert (days : List ℕ) (xm : ℕ → ℚ) (m : List (ℕ × Char × ℚ)) (t : Token)
    (c : Char) (h : codeOf t = some c) (hs : (shiftMap c).isSome = true)
    (hl : lookupDay m (closestDay days xm t.cx) = none) :
    shiftStep days xm m t = m ++ [(closestDay days xm t.cx, c, t.conf)] := by
  simp [shiftStep, h, hs, hl]

theorem shiftStep_update (days : List ℕ) (xm : ℕ → ℚ) (m : List (ℕ × Char × ℚ)) (t : Token)
    (c : Char) (p : Char × ℚ) (h : codeOf t = some c) (hs : (shiftMap c).isSome = true)
    (hl : lookupDay m (closestDay days xm t.cx) = some p) (hlt : p.2 < t.conf) :
    shiftStep days xm m t = updateDay m (closestDay days xm t.cx) (c, t.conf) := by
  simp [shiftStep, h, hs, hl, hlt]

theorem shiftStep_keep (days : List ℕ) (xm : ℕ → ℚ) (m : List (ℕ × Char × ℚ)) (t : Token)
    (c : Char) (p : Char × ℚ) (h : codeOf t = some c) (hs : (shiftMap c).isSome = true)
    (hl : lookupDay m (closestDay days xm t.cx) = some p) (hge : ¬ p.2 < t.conf) :
    shiftStep days xm m t = m := by
  simp [shiftStep, h, hs, hl, hge]

theorem shiftStep_mono (days : List ℕ) (xm : ℕ → ℚ) (m : List (ℕ × Char × ℚ)) (t : Token)
    (d' : ℕ) (p : Char × ℚ) (h : lookupDay m d' = some p) :
    ∃ p', lookupDay (shiftStep days xm m t) d' = some p' ∧ p.2 ≤ p'.2 := by
  cases hcode : codeOf t with
  | none =>
    rw [shiftStep_none days xm m t hcode]
    exact ⟨p, h, le_refl _⟩
  | some c =>
    by_cases hs : (shiftMap c).isSome = true
    · cases hl : lookupDay m (closestDay days xm t.cx) with
      | none =>
        rw [shiftStep_insert days xm m t c hcode hs hl]
        exact ⟨p, lookupDay_append_left m _ d' p h, le_refl _⟩
      | some p0 =>
        by_cases hlt : p0.2 < t.conf
        · rw [shiftStep_update days xm m t c p0 hcode hs hl hlt]
          by_cases hd : d' = closestDay days xm t.cx
          · subst hd
            have hpp : p = p0 := by
              rw [h] at hl
              exact Option.some.inj hl
            exact ⟨(c, t.conf), lookupDay_updateDay_self m _ (c, t.conf) p0 hl,
              by rw [hpp]; exact le_of_lt hlt⟩
          · rw [lookupDay_updateDay_ne m _ _ d' hd]
            exact ⟨p, h, le_refl _⟩
        · rw [shiftStep_keep days xm m t c p0 hcode hs hl hlt]
          exact ⟨p, h, le_refl _⟩
    · rw [shiftStep_skip days xm m t c hcode (by simpa using hs)]
      exact ⟨p, h, le_refl _⟩

theorem shiftStep_assigned (days : List ℕ) (xm : ℕ → ℚ) (m : List (ℕ × Char × ℚ))
    (t : Token) (c : Char) (hcode : codeOf t = some c) (hs : (shiftMap c).isSome = true) :
    ∃ p, lookupDay (shiftStep days xm m t) (closestDay days xm t.cx) = some p ∧
      t.conf ≤ p.2 := by
  cases hl : lookupDay m (closestDay days xm t.cx) with
  | none =>
    rw [shiftStep_insert days xm m t c hcode hs hl]
    exact ⟨(c, t.conf), lookupDay_append_self m _ _ hl, le_refl _⟩
  | some p0 =>
    by_cases hlt : p0.2 < t.conf
    · rw [shiftStep_update days xm m t c p0 hcode hs hl hlt]
      exact ⟨(c, t.conf), lookupDay_updateDay_self m _ _ p0 hl, le_refl _⟩
    · rw [shiftStep_keep days xm m t c p0 hcode hs hl hlt]
      exact ⟨p0, hl, le_of_not_lt hlt⟩

theorem foldl_shiftStep_mono (days : List ℕ) (xm : ℕ → ℚ) :
    ∀ (ts : List Token) (m : List (ℕ × Char × ℚ)) (d' : ℕ) (p : Char × ℚ),
      lookupDay m d' = some p →
      ∃ p', lookupDay (ts.foldl (shiftStep days xm) m) d' = some p' ∧ p.2 ≤ p'.2 := by
  intro ts
  induction ts with
  | nil => intro m d' p h; exact ⟨p, h, le_refl _⟩
  | cons t rest ih =>
    intro m d' p h
    obtain ⟨p1, h1, hle1⟩ := shiftStep_mono days xm m t d' p h
    obtain ⟨p2, h2, hle2⟩ := ih (shiftStep days xm m t) d' p1 h1
    exact ⟨p2, h2, le_trans hle1 hle2⟩

theorem foldl_shiftStep_assigned (days : List ℕ) (xm : ℕ → ℚ) :
    ∀ (ts : List Token) (m : List (ℕ × Char × ℚ)) (t : Token), t ∈ ts →
      ∀ c, codeOf t = some c → (shiftMap c).isSome = true →
      ∃ p, lookupDay (ts.foldl (shiftStep days xm) m) (closestDay days xm t.cx) = some p ∧
        t.conf ≤ p.2 := by
  intro ts
  induction ts with
  | nil => intro m t ht; simp at ht
  | cons t0 rest ih =>
    intro m t ht c hcode hs
    rcases List.mem_cons.mp ht with h | h
    · obtain rfl := h
      obtain ⟨p1, h1, hle1⟩ := shiftStep_assigned days xm m t c hcode hs
      obtain ⟨p2, h2, hle2⟩ := foldl_shiftStep_mono days xm rest (shiftStep days xm m t)
        (closestDay days xm t.cx) p1 h1
      exact ⟨p2, h2, le_trans hle1 hle2⟩
    · exact ih (shiftStep days xm m t0) t h c hcode hs

theorem keysOf_shiftStep_nodup (days : List ℕ) (xm : ℕ → ℚ) (m : List (ℕ × Char × ℚ))
    (t : Token) (h : (keysOf m).Nodup) : (keysOf (shiftStep days xm m t)).Nodup := by
  cases hcode : codeOf t with
  | none => rw [shiftStep_none days xm m t hcode]; exact h
  | some c =>
    by_cases hs : (shiftMap c).isSome = true
    · cases hl : lookupDay m (closestDay days xm t.cx) with
      | none =>
        rw [shiftStep_insert days xm m t c hcode hs hl]
        rw [keysOf, List.map_append, List.nodup_append]
        refine ⟨h, List.nodup_singleton _, ?_⟩
        intro a ha hb
        rw [List.map_singleton, List.mem_singleton] at hb
        rw [lookupDay_eq_none_iff] at hl
        have hb' : a = closestDay days xm t.cx := hb
        exact hl (hb' ▸ ha)
      | some p0 =>
        by_cases hlt : p0.2 < t.conf
        · rw [shiftStep_update days xm m t c p0 hcode hs hl hlt, keysOf_updateDay]
          exact h
        · rw [shiftStep_keep days xm m t c p0 hcode hs hl hlt]
          exact h
    · rw [shiftStep_skip days xm m t c hcode (by simpa using hs)]
      exact h

theorem mem_shiftStep (days : List ℕ) (xm : ℕ → ℚ) (m : List (ℕ × Char × ℚ)) (t : Token)
    (e : ℕ × Char × ℚ) (h : e ∈ shiftStep days xm m t) :
    e ∈ m ∨ (e.1 = closestDay days xm t.cx ∧ codeOf t = some e.2.1 ∧ e.2.2 = t.conf) := by
  cases hcode : codeOf t with
  | none => rw [shiftStep_none days xm m t hcode] at h; exact Or.inl h
  | some c =>
    by_cases hs : (shiftMap c).isSome = true
    · cases hl : lookupDay m (closestDay days xm t.cx) with
      | none =>
        rw [shiftStep_insert days xm m t c hcode hs hl] at h
        rcases List.mem_append.mp h with h1 | h1
        · exact Or.inl h1
        · rw [List.mem_singleton] at h1
          rw [h1]
          exact Or.inr ⟨rfl, rfl, rfl⟩
      | some p0 =>
        by_cases hlt : p0.2 < t.conf
        · rw [shiftStep_update days xm m t c p0 hcode hs hl hlt] at h
          rcases mem_updateDay m _ _ e h with h1 | h1
          · exact Or.inl h1
          · rw [h1]
            exact Or.inr ⟨rfl, rfl, rfl⟩
        · rw [shiftStep_keep days xm m t c p0 hcode hs hl hlt] at h
          exact Or.inl h
    · rw [shiftStep_skip days xm m t c hcode (by simpa using hs)] at h
      exact Or.inl h

theorem foldl_shiftStep_mem (days : List ℕ) (xm : ℕ → ℚ) :
    ∀ (ts : List Token) (m : List (ℕ × Char × ℚ)) (e : ℕ × Char × ℚ),
      e ∈ ts.foldl (shiftStep days xm) m →
      e ∈ m ∨ ∃ t ∈ ts, e.1 = closestDay days xm t.cx ∧ codeOf t = some e.2.1 ∧
        e.2.2 = t.conf := by
  intro ts
  induction ts with
  | nil => intro m e h; exact Or.inl h
  | cons t0 rest ih =>
    intro m e h
    rcases ih (shiftStep days xm m t0) e h with h1 | h1
    · rcases mem_shiftStep days xm m t0 e h1 with h2 | h2
      · exact Or.inl h2
      · exact Or.inr ⟨t0, List.mem_cons_self _ _, h2⟩
    · obtain ⟨t, ht, hprop⟩ := h1
      exact Or.inr ⟨t, List.mem_cons.mpr (Or.inr ht), hprop⟩

/-- Claim C4: each day holds at most one assignment (the key list of the
built map has no duplicates); every shift token whose code is in the shift
table ends up dominated — the assignment finally stored at its closest day
has confidence at least the token's, so a strictly-higher-confidence token
always displaces a lower one; and every stored assignment is exactly the
`(code, confidence)` of one of the contributing tokens, never an average or
merge. -/
theorem c4_collision_resolution (days : List ℕ) (xm : ℕ → ℚ) (ts : List Token) :
    (keysOf (buildShiftMap days xm ts)).Nodup ∧
    (∀ t ∈ ts, ∀ c, codeOf t = some c → (shiftMap c).isSome = true →
      ∃ p, lookupDay (buildShiftMap days xm ts) (closestDay days xm t.cx) = some p ∧
        t.conf ≤ p.2) ∧
    (∀ e ∈ buildShiftMap days xm ts, ∃ t ∈ ts,
      e.1 = closestDay days xm t.cx ∧ codeOf t = some e.2.1 ∧ e.2.2 = t.conf) := by
  refine ⟨?_, ?_, ?_⟩
  · have : ∀ (l : List Token) (m : List (ℕ × Char × ℚ)), (keysOf m).Nodup →
        (keysOf (l.foldl (shiftStep days xm) m)).Nodup := by
      intro l
      induction l with
      | nil => intro m h; exact h
      | cons t rest ih =>
        intro m h
        exact ih (shiftStep days xm m t) (keysOf_shiftStep_nodup days xm m t h)
    exact this ts [] List.nodup_nil
  · intro t ht c hcode hs
    exact foldl_shiftStep_assigned days xm ts [] t ht c hcode hs
  · intro e he
    rcases foldl_shiftStep_mem days xm ts [] e he with h | h
    · simp at h
    · exact h

/-- Witness for C4 at the spec's example: two shift tokens nearest to the
same day, confidences 0.9 and 0.6 — the retained assignment is the 0.9 one
and the 0.6 token leaves no trace in the map. -/
theorem c4_collision_resolution_witness :
    buildShiftMap [1] (fun _ => 0) [⟨"M", 9/10, 0, 0⟩, ⟨"N", 6/10, 0, 0⟩] =
      [(1, ('M', 9/10))] ∧
    ∃ p, lookupDay (buildShiftMap [1] (fun _ => 0) [⟨"M", 9/10, 0, 0⟩, ⟨"N", 6/10, 0, 0⟩])
      (closestDay [1] (fun _ => 0) 0) = some p ∧ (9/10 : ℚ) ≤ p.2 := by
  constructor
  · show List.foldl _ _ _ = _
    rw [List.foldl_cons, List.foldl_cons, List.foldl_nil]
    rw [shiftStep_insert [1] (fun _ => 0) [] ⟨"M", 9/10, 0, 0⟩ 'M' (by decide) (by decide)
      rfl]
    rw [List.nil_append]
    rw [shiftStep_keep [1] (fun _ => 0)
      [(closestDay [1] (fun _ => 0) (⟨"M", 9/10, 0, 0⟩ : Token).cx, 'M', 9/10)]
      ⟨"N", 6/10, 0, 0⟩ 'N' ('M', 9/10) (by decide) (by decide) rfl (by norm_num)]
    rfl
  · exact (c4_collision_resolution [1] (fun _ => 0)
      [⟨"M", 9/10, 0, 0⟩, ⟨"N", 6/10, 0, 0⟩]).2.1 ⟨"M", 9/10, 0, 0⟩
      (List.mem_cons_self _ _) 'M' (by decide) (by decide)

/-! ### Claim C6: monotonicity of the day anchors -/

/-- The anchor value stored for the day at 0-based index `base + j`, when the
header-token list still to be consumed is `dts` and `j` indexes into it. -/
def anchorAt (dts : List Token) (W : ℚ) (n base j : ℕ) : ℚ :=
  match dts.get? j with
  | some t => t.cx
  | none => synthAnchor W n (base + j)

theorem anchorAt_cons (t : Token) (ts : List Token) (W : ℚ) (n base j : ℕ) :
    anchorAt (t :: ts) W n base (j + 1) = anchorAt ts W n (base + 1) j := by
  rw [anchorAt, anchorAt, List.get?_cons_succ]
  cases ts.get? j with
  | some u => rfl
  | none =>
    show synthAnchor W n (base + (j + 1)) = synthAnchor W n (base + 1 + j)
    rw [show base + (j + 1) = base + 1 + j by omega]

theorem anchorAt_nil (W : ℚ) (n base j : ℕ) :
    anchorAt [] W n base (j + 1) = anchorAt [] W n (base + 1) j := by
  rw [anchorAt, anchorAt]
  show synthAnchor W n (base + (j + 1)) = synthAnchor W n (base + 1 + j)
  rw [show base + (j + 1) = base + 1 + j by omega]

theorem lookupX_dayXList (W : ℚ) (n : ℕ) :
    ∀ (ds : List ℕ) (dts : List Token) (i0 : ℕ) (j : ℕ) (h : j < ds.length),
      (∀ k (hk : k < ds.length), k < j → ds.get ⟨k, hk⟩ ≠ ds.get ⟨j, h⟩) →
      lookupX (dayXList W n dts ds i0) (ds.get ⟨j, h⟩) = some (anchorAt dts W n i0 j) := by
  intro ds
  induction ds with
  | nil => intro dts i0 j h; simp at h
  | cons d ds' ih =>
    intro dts i0 j h hdist
    match j with
    | 0 =>
      cases dts with
      | nil =>
        show lookupX ((d, synthAnchor W n i0) :: _) d = _
        rw [lookupX, if_pos rfl]
        rfl
      | cons t ts =>
        show lookupX ((d, t.cx) :: _) d = _
        rw [lookupX, if_pos rfl]
        rfl
    | j' + 1 =>
      have hne : d ≠ ds'.get ⟨j', Nat.lt_of_succ_lt_succ h⟩ := by
        have := hdist 0 (Nat.zero_lt_succ _) (Nat.zero_lt_succ _)
        simpa using this
      have hdist' : ∀ k (hk : k < ds'.length), k < j' →
          ds'.get ⟨k, hk⟩ ≠ ds'.get ⟨j', Nat.lt_of_succ_lt_succ h⟩ := by
        intro k hk hkj
        have := hdist (k + 1) (Nat.succ_lt_succ hk) (Nat.succ_lt_succ hkj)
        simpa using this
      cases dts with
      | nil =>
        show lookupX ((d, synthAnchor W n i0) :: dayXList W n [] ds' (i0 + 1)) _ = _
        rw [lookupX]
        rw [show (d :: ds').get ⟨j' + 1, h⟩ = ds'.get ⟨j', Nat.lt_of_succ_lt_succ h⟩ from rfl]
        rw [if_neg hne, ih [] (i0 + 1) j' (Nat.lt_of_succ_lt_succ h) hdist', anchorAt_nil]
      | cons t ts =>
        show lookupX ((d, t.cx) :: dayXList W n ts ds' (i0 + 1)) _ = _
        rw [lookupX]
        rw [show (d :: ds').get ⟨j' + 1, h⟩ = ds'.get ⟨j', Nat.lt_of_succ_lt_succ h⟩ from rfl]
        rw [if_neg hne, ih ts (i0 + 1) j' (Nat.lt_of_succ_lt_succ h) hdist', anchorAt_cons]

theorem days31_length : days31.length = 31 := rfl

theorem days31_get (j : ℕ) (h : j < days31.length) : days31.get ⟨j, h⟩ = j + 1 := by
  simp [days31, List.get_eq_getElem]

theorem lookupX_days31 (dts : List Token) (W : ℚ) (j : ℕ) (h : j < 31) :
    lookupX (dayXMap dts days31 W) (j + 1) = some (anchorAt dts W 31 0 j) := by
  have h' : j < days31.length := by rw [days31_length]; exact h
  have := lookupX_dayXList W days31.length days31 dts 0 j h' (by
    intro k hk hkj
    rw [days31_get k hk, days31_get j h']
    omega)
  rw [days31_get j h'] at this
  rw [dayXMap]
  rw [show days31.length = 31 from rfl] at this ⊢
  exact this

/-- Claim C6 as stated is false: with header tokens at `cx = 900` and
`cx = 950` (sorted, distinct) on a 1000-wide image, day 2 is anchored at 950
but day 3 receives the synthetic anchor `2.5 × 1000 / 31 ≈ 80.6`, so the
anchors are not monotone across the detected/synthesized boundary. -/
theorem c6_anchor_monotonic_counterexample :
    List.Pairwise (fun a b : Token => a.cx < b.cx) [⟨"1", 1, 900, 0⟩, ⟨"2", 1, 950, 0⟩] ∧
    lookupX (dayXMap [⟨"1", 1, 900, 0⟩, ⟨"2", 1, 950, 0⟩] days31 1000) 2 = some 950 ∧
    lookupX (dayXMap [⟨"1", 1, 900, 0⟩, ⟨"2", 1, 950, 0⟩] days31 1000) 3 =
      some (2500 / 31) ∧
    ¬ ((950 : ℚ) < 2500 / 31) := by
  refine ⟨?_, ?_, ?_, by norm_num⟩
  · rw [List.pairwise_cons]
    refine ⟨?_, List.pairwise_singleton _ _⟩
    intro t ht
    rw [List.mem_singleton] at ht
    rw [ht]
    norm_num
  · have := lookupX_days31 [⟨"1", 1, 900, 0⟩, ⟨"2", 1, 950, 0⟩] 1000 1 (by omega)
    rw [this]
    rfl
  · have := lookupX_days31 [⟨"1", 1, 900, 0⟩, ⟨"2", 1, 950, 0⟩] 1000 2 (by omega)
    rw [this]
    rw [show anchorAt [⟨"1", 1, 900, 0⟩, ⟨"2", 1, 950, 0⟩] 1000 31 0 2 =
      synthAnchor 1000 31 2 from rfl]
    rw [synthAnchor]
    norm_num

/-- Claim C6 (amended): the anchors are monotone within each segment — for
two days both covered by detected header tokens sorted left-to-right with
distinct positions, and for two days both receiving synthesized anchors on a
positive-width image — but not necessarily across the boundary between the
segments. -/
theorem c6_anchor_monotonic_amended (dts : List Token) (W : ℚ)
    (hsorted : List.Pairwise (fun a b : Token => a.cx < b.cx) dts) (hW : 0 < W)
    (i j : ℕ) (hij : i < j) (hj : j < 31) :
    (j < dts.length →
      ∀ xi xj, lookupX (dayXMap dts days31 W) (i + 1) = some xi →
        lookupX (dayXMap dts days31 W) (j + 1) = some xj → xi < xj) ∧
    (dts.length ≤ i →
      ∀ xi xj, lookupX (dayXMap dts days31 W) (i + 1) = some xi →
        lookupX (dayXMap dts days31 W) (j + 1) = some xj → xi < xj) := by
  have hi : i < 31 := lt_trans hij hj
  constructor
  · intro hjlen xi xj hxi hxj
    rw [lookupX_days31 dts W i hi] at hxi
    rw [lookupX_days31 dts W j hj] at hxj
    have hilen : i < dts.length := lt_trans hij hjlen
    rw [anchorAt, List.get?_eq_get hilen] at hxi
    rw [anchorAt, List.get?_eq_get hjlen] at hxj
    obtain rfl := Option.some.inj hxi
    obtain rfl := Option.some.inj hxj
    exact List.pairwise_iff_get.mp hsorted ⟨i, hilen⟩ ⟨j, hjlen⟩ hij
  · intro hilen xi xj hxi hxj
    rw [lookupX_days31 dts W i hi] at hxi
    rw [lookupX_days31 dts W j hj] at hxj
    have hjlen : dts.length ≤ j := le_trans hilen (le_of_lt hij)
    rw [anchorAt, List.get?_eq_none.mpr hilen] at hxi
    rw [anchorAt, List.get?_eq_none.mpr hjlen] at hxj
    obtain rfl := Option.some.inj hxi
    obtain rfl := Option.some.inj hxj
    show synthAnchor W 31 (0 + i) < synthAnchor W 31 (0 + j)
    simp only [synthAnchor, Nat.zero_add]
    push_cast
    rw [div_lt_div_iff_of_pos_right (by norm_num : (0 : ℚ) < 31)]
    refine mul_lt_mul_of_pos_right ?_ hW
    have : (i : ℚ) < (j : ℚ) := by exact_mod_cast hij
    linarith

/-- Witness for the amended C6: with header tokens at 900 and 950 on a
1000-wide image, days 1 and 2 (both detected) are ordered, as are days 6 and
7 (both synthesized). -/
theorem c6_anchor_monotonic_amended_witness :
    (∀ xi xj,
      lookupX (dayXMap [⟨"1", 1, 900, 0⟩, ⟨"2", 1, 950, 0⟩] days31 1000) 1 = some xi →
      lookupX (dayXMap [⟨"1", 1, 900, 0⟩, ⟨"2", 1, 950, 0⟩] days31 1000) 2 = some xj →
      xi < xj) ∧
    (∀ xi xj,
      lookupX (dayXMap [⟨"1", 1, 900, 0⟩, ⟨"2", 1, 950, 0⟩] days31 1000) 6 = some xi →
      lookupX (dayXMap [⟨"1", 1, 900, 0⟩, ⟨"2", 1, 950, 0⟩] days31 1000) 7 = some xj →
      xi < xj) := by
  have hsorted : List.Pairwise (fun a b : Token => a.cx < b.cx)
      [⟨"1", 1, 900, 0⟩, ⟨"2", 1, 950, 0⟩] := by
    rw [List.pairwise_cons]
    refine ⟨?_, List.pairwise_singleton _ _⟩
    intro t ht
    rw [List.mem_singleton] at ht
    rw [ht]
    norm_num
  constructor
  · exact (c6_anchor_monotonic_amended [⟨"1", 1, 900, 0⟩, ⟨"2", 1, 950, 0⟩] 1000 hsorted
      (by norm_num) 0 1 (by omega) (by omega)).1 (by decide)
  · exact (c6_anchor_monotonic_amended [⟨"1", 1, 900, 0⟩, ⟨"2", 1, 950, 0⟩] 1000 hsorted
      (by norm_num) 5 6 (by omega) (by omega)).2 (by decide)

end OcrEngine
